import Mathlib

/-!
A verification development for the link-generation layer of stac-fastapi-pgstac
(`stac_fastapi/pgstac/models/links.py`).

The module under verification builds hypermedia links for STAC resources and
cursor-based pagination links.  Its behaviour is dominated by the functions it
calls from Python's `urllib.parse` (`parse_qs`, `urlencode`, `unquote`,
`urlparse`, `urlunparse`, `urljoin`), so this file first gives an executable
shallow embedding of those functions, faithful to CPython's `urllib/parse.py`
on the single-byte (ASCII) fragment of strings that URLs in this API use:
percent escapes are decoded byte by byte (CPython assembles consecutive
escapes and UTF-8-decodes them, which agrees with the byte-by-byte model on
ASCII byte values).  Strings are handled as `List Char` internally and as
`String` at the API boundary so that every definition evaluates by `decide`.

On top of that the file embeds the link classes of `links.py`:
`filter_links`, `merge_params`, the `BaseLinks` producers, `PagingLinks`
(whose POST branch mutates the single shared `request.postbody` dictionary —
modelled by explicit state passing, with produced links holding a reference
marker that is dereferenced against the final dictionary state when the link
list is returned), and `CollectionLinks`.  `create_links` collects the
`link_*` producers in `dir()` order (alphabetical), appending each producer's
return value — including `None` — exactly as the source does.
-/

namespace StacLinks

/-! ## Characters and percent-coding (urllib.parse quoting primitives) -/

/-- ASCII lower-casing of one character, as `str.lower` does for ASCII. -/
def asciiLower (c : Char) : Char :=
  if 'A' ≤ c && c ≤ 'Z' then Char.ofNat (c.toNat + 32) else c

/-- ASCII lower-casing of a character list. -/
def lowerStr (s : List Char) : List Char := s.map asciiLower

/-- Characters of a URL scheme after the first (`scheme_chars` in urllib). -/
def isSchemeChar (c : Char) : Bool :=
  c.isAlpha || c.isDigit || c == '+' || c == '-' || c == '.'

/-- The characters `urllib.parse.quote` never escapes (`_ALWAYS_SAFE`). -/
def alwaysSafe (c : Char) : Bool :=
  c.isAlpha || c.isDigit || c == '_' || c == '.' || c == '-' || c == '~'

/-- Upper-case hexadecimal digit for a value below 16. -/
def hexDigitUpper (n : Nat) : Char :=
  if n < 10 then Char.ofNat (48 + n) else Char.ofNat (55 + n)

/-- `%XX` escape (upper-case hex) for one byte-valued character. -/
def percentEncode (c : Char) : List Char :=
  ['%', hexDigitUpper (c.toNat / 16 % 16), hexDigitUpper (c.toNat % 16)]

/-- `urllib.parse.quote_plus` with `safe=''`: keep the always-safe
characters, turn spaces into `+`, percent-encode everything else. -/
def quote_plus (s : List Char) : List Char :=
  (s.map fun c =>
    if alwaysSafe c then [c] else if c == ' ' then ['+'] else percentEncode c).flatten

/-- Hexadecimal digit test. -/
def isHexDigit (c : Char) : Bool :=
  c.isDigit || ('A' ≤ c && c ≤ 'F') || ('a' ≤ c && c ≤ 'f')

/-- Value of a hexadecimal digit. -/
def hexVal (c : Char) : Nat :=
  if c.isDigit then c.toNat - 48
  else if 'A' ≤ c && c ≤ 'F' then c.toNat - 55
  else c.toNat - 87

/-- `urllib.parse.unquote`: decode `%XX` escapes; malformed escapes are kept
literally; `+` is left untouched. -/
def unquoteChars : List Char → List Char
  | [] => []
  | '%' :: a :: b :: rest =>
    if isHexDigit a && isHexDigit b then
      Char.ofNat (16 * hexVal a + hexVal b) :: unquoteChars rest
    else
      '%' :: unquoteChars (a :: b :: rest)
  | c :: rest => c :: unquoteChars rest

/-! ## List-of-characters splitting helpers -/

/-- Split a character list on every occurrence of `sep` (like `str.split`). -/
def splitChar (sep : Char) : List Char → List (List Char)
  | [] => [[]]
  | c :: cs =>
    if c == sep then [] :: splitChar sep cs
    else
      match splitChar sep cs with
      | [] => [[c]]
      | g :: gs => (c :: g) :: gs

/-- Split at the first occurrence of `sep` (like `str.split(sep, 1)`),
returning `none` when `sep` does not occur. -/
def splitFirst (sep : Char) : List Char → Option (List Char × List Char)
  | [] => none
  | c :: cs =>
    if c == sep then some ([], cs)
    else
      match splitFirst sep cs with
      | none => none
      | some (a, b) => some (c :: a, b)

/-- `str.replace('+', ' ')`, used by `parse_qsl` on names and values. -/
def plusToSpace (s : List Char) : List Char :=
  s.map fun c => if c == '+' then ' ' else c

/-! ## Query-string parsing and serialisation (`parse_qs` / `urlencode`) -/

/-- Keys of the parsed query mapping. -/
abbrev QKey := List Char

/-- `urllib.parse.parse_qsl` with the default `keep_blank_values=False` and
separator `&`: empty chunks, chunks without `=` and chunks with an empty
value are dropped; `+` becomes a space and percent-escapes are decoded in
both name and value. -/
def parse_qsl (qs : List Char) : List (QKey × List Char) :=
  (splitChar '&' qs).filterMap fun nv =>
    if nv.isEmpty then none
    else
      match splitFirst '=' nv with
      | none => none
      | some (n, v) =>
        if v.isEmpty then none
        else some (unquoteChars (plusToSpace n), unquoteChars (plusToSpace v))

/-- One `parse_qs` insertion step: append the value to an existing key's list
(the key keeps its position) or append a fresh key at the end, exactly as the
CPython loop over a `dict` does. -/
def qsAdd (m : List (QKey × List (List Char))) (k : QKey) (v : List Char) :
    List (QKey × List (List Char)) :=
  match m with
  | [] => [(k, [v])]
  | (k', vs) :: rest =>
    if k' = k then (k', vs ++ [v]) :: rest else (k', vs) :: qsAdd rest k v

/-- `urllib.parse.parse_qs`: group `parse_qsl` pairs into an insertion-ordered
multi-valued mapping. -/
def parse_qs (qs : List Char) : List (QKey × List (List Char)) :=
  (parse_qsl qs).foldl (fun m kv => qsAdd m kv.1 kv.2) []

/-- A value of the dictionary passed to `urlencode` by `merge_params`: either
a list of strings produced by `parse_qs`, or a plain string written by
`dict.update(newparams)`. -/
inductive QVal where
  | strs : List (List Char) → QVal
  | str : List Char → QVal
  deriving DecidableEq

/-- The mixed-valued, insertion-ordered dictionary `merge_params` builds. -/
abbrev MDict := List (QKey × QVal)

/-- View a `parse_qs` result as a mixed dictionary. -/
def toMDict (q : List (QKey × List (List Char))) : MDict :=
  q.map fun kv => (kv.1, QVal.strs kv.2)

/-- Python `d[k] = v` on an insertion-ordered dictionary: replace the value
in place if the key is present, otherwise append the pair at the end. -/
def setKey : MDict → QKey → QVal → MDict
  | [], k, v => [(k, v)]
  | (k', v') :: rest, k, v =>
    if k' = k then (k', v) :: rest else (k', v') :: setKey rest k v

/-- Python `d.update(newparams)`: apply `d[k] = v` for every pair in order. -/
def dictUpdate (m : MDict) (p : List (QKey × List Char)) : MDict :=
  p.foldl (fun m kv => setKey m kv.1 (QVal.str kv.2)) m

/-- The `key=value` components `urlencode(..., doseq=True)` emits for one
dictionary entry: one component for a plain-string value, one per element for
a list value, key and value both passed through `quote_plus`. -/
def encodeQVal (k : QKey) : QVal → List (List Char)
  | QVal.str v => [quote_plus k ++ '=' :: quote_plus v]
  | QVal.strs vs => vs.map fun v => quote_plus k ++ '=' :: quote_plus v

/-- `urllib.parse.urlencode(query, doseq=True)` on the mixed dictionary. -/
def urlencode (m : MDict) : List Char :=
  List.intercalate ['&'] (m.map fun kv => encodeQVal kv.1 kv.2).flatten

/-! ## URL splitting and unsplitting (`urlsplit` / `urlparse` / `urlunparse`)

Following CPython `urllib/parse.py`: a scheme is recognised when the
characters before the first `:` are non-empty scheme characters starting with
a letter, and is lower-cased; a netloc follows `//` up to the next `/`, `?`
or `#`; the fragment is split off at the first `#` before the query is split
off at the first `?`; `urlparse` additionally splits `;params` from the last
path segment for schemes in `uses_params`. -/

/-- Result of `urlsplit`. -/
structure UrlSplit where
  scheme : List Char
  netloc : List Char
  path : List Char
  query : List Char
  fragment : List Char
  deriving DecidableEq

/-- Result of `urlparse` (`urlsplit` plus the `;params` component). -/
structure UrlParts where
  scheme : List Char
  netloc : List Char
  path : List Char
  params : List Char
  query : List Char
  fragment : List Char
  deriving DecidableEq

/-- Characters before the first `:`, provided they are all scheme
characters; `none` if there is no `:` or a non-scheme character precedes it. -/
def schemeSplitAux : List Char → Option (List Char × List Char)
  | [] => none
  | c :: cs =>
    if c == ':' then some ([], cs)
    else if isSchemeChar c then
      match schemeSplitAux cs with
      | none => none
      | some (s, r) => some (c :: s, r)
    else none

/-- Scheme recognition of `urlsplit`: non-empty, letter-initial scheme
characters before a `:`; the scheme is returned lower-cased together with the
remainder after the `:`. -/
def splitScheme (url : List Char) : Option (List Char × List Char) :=
  match schemeSplitAux url with
  | none => none
  | some ([], _) => none
  | some (c0 :: s, rest) =>
    if c0.isAlpha then some (lowerStr (c0 :: s), rest) else none

/-- `_splitnetloc`: take characters up to the first `/`, `?` or `#`. -/
def takeNetloc : List Char → List Char × List Char
  | [] => ([], [])
  | c :: cs =>
    if c == '/' || c == '?' || c == '#' then ([], c :: cs)
    else
      match takeNetloc cs with
      | (a, b) => (c :: a, b)

/-- `urllib.parse.urlsplit url scheme` (the second argument is the default
scheme used when none is present in the URL). -/
def urlsplitD (url : List Char) (defaultScheme : List Char) : UrlSplit :=
  let sr :=
    match splitScheme url with
    | some x => x
    | none => (defaultScheme, url)
  let nr :=
    match sr.2 with
    | '/' :: '/' :: r2 => takeNetloc r2
    | r => ([], r)
  let rf :=
    match splitFirst '#' nr.2 with
    | some x => x
    | none => (nr.2, [])
  let pq :=
    match splitFirst '?' rf.1 with
    | some x => x
    | none => (rf.1, [])
  ⟨sr.1, nr.1, pq.1, pq.2, rf.2⟩

/-- Schemes treated as relative-capable by `urljoin` (`uses_relative`). -/
def uses_relative : List (List Char) :=
  ["", "ftp", "http", "gopher", "nntp", "imap", "wais", "file", "https",
   "shttp", "mms", "prospero", "rtsp", "rtspu", "sftp", "svn", "svn+ssh",
   "ws", "wss"].map String.data

/-- Schemes that use a network location (`uses_netloc`). -/
def uses_netloc : List (List Char) :=
  ["", "ftp", "http", "gopher", "nntp", "telnet", "imap", "wais", "file",
   "mms", "https", "shttp", "snews", "prospero", "rtsp", "rtspu", "rsync",
   "svn", "svn+ssh", "sftp", "nfs", "git", "git+ssh", "ws", "wss"].map
    String.data

/-- Schemes whose paths may carry `;params` (`uses_params`). -/
def uses_params : List (List Char) :=
  ["", "ftp", "hdl", "prospero", "http", "imap", "https", "shttp", "rtsp",
   "rtspu", "sip", "sips", "mms", "sftp", "tel"].map String.data

/-- The part of a path strictly after its last `/` (the whole path when it
has no `/`), together with what precedes it. -/
def splitLastSlash (path : List Char) : Option (List Char × List Char) :=
  match splitChar '/' path with
  | [] => none
  | [_] => none
  | gs => some (List.intercalate ['/'] gs.dropLast, gs.getLast?.getD [])

/-- `_splitparams`: split `;params` off the last path segment (`;` occurring
in an earlier segment does not count). -/
def splitparams (path : List Char) : List Char × List Char :=
  match splitLastSlash path with
  | some (pre, seg) =>
    match splitFirst ';' seg with
    | some (a, b) => (pre ++ '/' :: a, b)
    | none => (path, [])
  | none =>
    match splitFirst ';' path with
    | some (a, b) => (a, b)
    | none => (path, [])

/-- `urllib.parse.urlparse url scheme`. -/
def urlparseD (url : List Char) (defaultScheme : List Char) : UrlParts :=
  let s := urlsplitD url defaultScheme
  let pp :=
    if uses_params.contains s.scheme && s.path.contains ';' then
      splitparams s.path
    else (s.path, [])
  ⟨s.scheme, s.netloc, pp.1, pp.2, s.query, s.fragment⟩

/-- `urllib.parse.urlunsplit`. -/
def urlunsplit (scheme netloc path query fragment : List Char) : List Char :=
  let url :=
    if !netloc.isEmpty ||
        (!scheme.isEmpty && uses_netloc.contains scheme &&
          path.take 2 ≠ ['/', '/']) then
      let p := if !path.isEmpty && path.head? ≠ some '/' then '/' :: path
               else path
      '/' :: '/' :: (netloc ++ p)
    else path
  let url := if !scheme.isEmpty then scheme ++ ':' :: url else url
  let url := if !query.isEmpty then url ++ '?' :: query else url
  if !fragment.isEmpty then url ++ '#' :: fragment else url

/-- `urllib.parse.urlunparse`, also `ParseResult.geturl`. -/
def urlunparse (u : UrlParts) : List Char :=
  let path := if !u.params.isEmpty then u.path ++ ';' :: u.params else u.path
  urlunsplit u.scheme u.netloc path u.query u.fragment

/-! ## `urljoin` -/

/-- Middle-element filtering used by `urljoin` on the joined segment list
(`segments[1:-1] = filter(None, segments[1:-1])`): the first and last
elements are kept, empty middle elements are dropped. -/
def filterMiddleTail : List (List Char) → List (List Char)
  | [] => []
  | [x] => [x]
  | x :: rest =>
    if x.isEmpty then filterMiddleTail rest else x :: filterMiddleTail rest

/-- Keep the head, filter empty elements from the middle of the tail. -/
def filterMiddle : List (List Char) → List (List Char)
  | [] => []
  | x :: rest => x :: filterMiddleTail rest

/-- The `urljoin` segment-resolution loop: `..` pops (ignoring underflow),
`.` is dropped, everything else is appended. -/
def resolveSegs : List (List Char) → List (List Char) → List (List Char)
  | [], acc => acc
  | seg :: rest, acc =>
    if seg = ['.', '.'] then resolveSegs rest acc.dropLast
    else if seg = ['.'] then resolveSegs rest acc
    else resolveSegs rest (acc ++ [seg])

/-- `urllib.parse.urljoin` on character lists, following the CPython
implementation (RFC 3986 resolution in its backward-compatible non-strict
mode: a target sharing the base's scheme is treated as a relative
reference). -/
def urljoinChars (base url : List Char) : List Char :=
  if base.isEmpty then url
  else if url.isEmpty then base
  else
    let b := urlparseD base []
    let t := urlparseD url b.scheme
    if t.scheme ≠ b.scheme || !uses_relative.contains t.scheme then url
    else if uses_netloc.contains t.scheme && !t.netloc.isEmpty then
      urlunparse t
    else
      let netloc := if uses_netloc.contains t.scheme then b.netloc
                    else t.netloc
      if t.path.isEmpty && t.params.isEmpty then
        let query := if t.query.isEmpty then b.query else t.query
        urlunparse ⟨t.scheme, netloc, b.path, b.params, query, t.fragment⟩
      else
        let base_parts :=
          let bp := splitChar '/' b.path
          if bp.getLast? ≠ some [] then bp.dropLast else bp
        let segments :=
          if t.path.head? = some '/' then splitChar '/' t.path
          else filterMiddle (base_parts ++ splitChar '/' t.path)
        let resolved := resolveSegs segments []
        let resolved :=
          if segments.getLast? = some ['.'] ∨ segments.getLast? = some ['.', '.']
          then resolved ++ [[]]
          else resolved
        let joined := List.intercalate ['/'] resolved
        let newpath := if joined.isEmpty then ['/'] else joined
        urlunparse ⟨t.scheme, netloc, newpath, t.params, t.query, t.fragment⟩

/-- `urljoin` at the `String` boundary. -/
def urljoin (base url : String) : String :=
  String.mk (urljoinChars base.data url.data)

/-! ## The link model (`stac_fastapi/pgstac/models/links.py`)

Links are Python dictionaries with a fixed repertoire of fields; relations
and media types are the string values of the `stac_pydantic` enums
(`Relations.next = "next"`, `MimeTypes.json = "application/json"`, ...).
POST bodies are JSON objects; the claims only exercise flat objects, so JSON
values are modelled by an unnested type with opaque scalar payloads. -/

/-- A JSON scalar value of a POST body. -/
inductive JVal where
  | str : String → JVal
  | num : Int → JVal
  | boolean : Bool → JVal
  | null : JVal
  deriving DecidableEq

/-- A JSON object (Python `dict`), insertion-ordered. -/
abbrev JDict := List (String × JVal)

/-- Python `d[k] = v` on a JSON object: overwrite in place or append. -/
def dictSet : JDict → String → JVal → JDict
  | [], k, v => [(k, v)]
  | (k', v') :: rest, k, v =>
    if k' = k then (k', v) :: rest else (k', v') :: dictSet rest k v

/-- `MimeTypes.json` of stac_pydantic. -/
def MimeTypes.json : String := "application/json"

/-- `MimeTypes.geojson` of stac_pydantic. -/
def MimeTypes.geojson : String := "application/geo+json"

/-- A link dictionary.  `β` is the type of the `body` payload: `Unit` while
the produced link still holds a reference to the request's shared `postbody`
dictionary, `JDict` once that reference has been dereferenced (or for links
supplied from outside). -/
structure Link (β : Type) where
  rel : String
  type : String
  href : String
  method : Option String := none
  body : Option β := none
  title : Option String := none
  templated : Option Bool := none
  deriving DecidableEq

/-- `INFERRED_LINK_RELS`. -/
def INFERRED_LINK_RELS : List String :=
  ["self", "item", "parent", "collection", "root"]

/-- `filter_links`: remove the links whose relation is inferred. -/
def filter_links {β : Type} (links : List (Link β)) : List (Link β) :=
  links.filter fun link => !(INFERRED_LINK_RELS.contains link.rel)

/-- A `newparams` dictionary of `merge_params` at the character-list level
(`String` keys and values are just viewed through their characters). -/
def newparamsOf (p : List (String × String)) : List (QKey × List Char) :=
  p.map fun kv => (kv.1.data, kv.2.data)

/-- `merge_params(url, newparams)`: parse the query with `parse_qs`, apply
`dict.update(newparams)`, re-serialise with `urlencode(..., doseq=True)`,
percent-decode the result with `unquote`, and rebuild the URL with the other
five components unchanged. -/
def merge_params (url : String) (newparams : List (String × String)) : String :=
  let u := urlparseD url.data []
  let params := toMDict (parse_qs u.query)
  let params := dictUpdate params (newparamsOf newparams)
  let param_string := unquoteChars (urlencode params)
  String.mk (urlunparse { u with query := param_string })

/-- The per-request data the link classes read: HTTP method,
`str(request.url)`, `str(request.base_url)` (supplied by the routing layer,
proxy prefix included), and the JSON value `await request.json()` would
return (read only for POST requests). -/
structure Request where
  method : String
  url : String
  base_url : String
  json : JDict
  deriving DecidableEq

/-- `BaseLinks.resolve`: `urljoin(str(self.base_url), str(url))`. -/
def resolve (req : Request) (url : String) : String :=
  urljoin req.base_url url

/-- `BaseLinks.link_self`. -/
def link_self {β : Type} (req : Request) : Link β :=
  { rel := "self", type := MimeTypes.json, href := req.url }

/-- `BaseLinks.link_root`. -/
def link_root {β : Type} (req : Request) : Link β :=
  { rel := "root", type := MimeTypes.json, href := req.base_url }

/-- `PagingLinks`: `next`/`prev` hold the optional pagination cursors. -/
structure PagingLinks where
  request : Request
  next : Option String := none
  prev : Option String := none
  deriving DecidableEq

/-- `PagingLinks.link_next`.  The state argument is the dictionary the
shared `request.postbody` reference currently holds; the POST branch writes
`body["token"]` into it and the produced link's `body := some ()` records
that the link holds a reference to that shared dictionary.  When no cursor is
present, or for a method other than GET and POST, the Python function falls
through and returns `None`. -/
def PagingLinks.link_next (p : PagingLinks) (postbody : JDict) :
    JDict × Option (Link Unit) :=
  match p.next with
  | none => (postbody, none)
  | some n =>
    let method := p.request.method
    if method = "GET" then
      (postbody,
       some { rel := "next", type := MimeTypes.json, method := some method,
              href := merge_params p.request.url [("token", "next:" ++ n)] })
    else if method = "POST" then
      (dictSet postbody "token" (JVal.str ("next:" ++ n)),
       some { rel := "next", type := MimeTypes.json, method := some method,
              href := p.request.url, body := some () })
    else (postbody, none)

/-- `PagingLinks.link_prev`, symmetric to `link_next`. -/
def PagingLinks.link_prev (p : PagingLinks) (postbody : JDict) :
    JDict × Option (Link Unit) :=
  match p.prev with
  | none => (postbody, none)
  | some n =>
    let method := p.request.method
    if method = "GET" then
      (postbody,
       some { rel := "previous", type := MimeTypes.json, method := some method,
              href := merge_params p.request.url [("token", "prev:" ++ n)] })
    else if method = "POST" then
      (dictSet postbody "token" (JVal.str ("prev:" ++ n)),
       some { rel := "previous", type := MimeTypes.json, method := some method,
              href := p.request.url, body := some () })
    else (postbody, none)

/-- `BaseLinks.create_links` for a `PagingLinks` instance: iterate the
`link_*` producers in `dir(self)` order — alphabetical, hence `link_next`,
`link_prev`, `link_root`, `link_self` — appending every produced value,
`None` included, while threading the shared `postbody` state. -/
def PagingLinks.create_links (p : PagingLinks) (postbody : JDict) :
    JDict × List (Option (Link Unit)) :=
  let r1 := p.link_next postbody
  let r2 := p.link_prev r1.1
  (r2.1, [r1.2, r2.2, some (link_root p.request), some (link_self p.request)])

/-- Dereference a produced link against the final state of the shared
`postbody` dictionary: the serialised link list is read only after all
producers have run, so every link holding the shared reference shows that
final state. -/
def deref (pb : JDict) (l : Link Unit) : Link JDict :=
  { rel := l.rel, type := l.type, href := l.href, method := l.method,
    body := l.body.map fun _ => pb, title := l.title,
    templated := l.templated }

/-- The extra-links half of `BaseLinks.get_links`, shared by every link
class (`create_links()` is virtual; its produced list is the `genLinks`
argument).  Each entry of `extra_links` whose relation is not inferred has
its `href` field overwritten in place with the resolved URL and is then
appended to the result; inferred entries are skipped.  The second component
is the final state of the caller's `extra_links` entries (the in-place
mutation visible to the caller). -/
def get_links_core (req : Request) (genLinks : List (Option (Link JDict)))
    (extra_links : List (Link JDict)) :
    List (Option (Link JDict)) × List (Link JDict) :=
  let extras := extra_links.map fun link =>
    if INFERRED_LINK_RELS.contains link.rel then link
    else { link with href := resolve req link.href }
  (genLinks ++
     (extras.filter fun link => !(INFERRED_LINK_RELS.contains link.rel)).map
       some,
   extras)

/-- `BaseLinks.get_links` on a `PagingLinks` instance: for POST requests the
shared `request.postbody` is set to the request's JSON body, `create_links`
runs the producers, produced links are read back against the final shared
state, and the extra links are resolved and appended.  (In Python
`extra_links` defaults to a module-level empty list; since `get_links` never
appends to the list itself — it only mutates the entry dictionaries — the
shared default is observationally an empty argument.) -/
def PagingLinks.get_links (p : PagingLinks)
    (extra_links : List (Link JDict)) :
    List (Option (Link JDict)) × List (Link JDict) :=
  let postbody := if p.request.method = "POST" then p.request.json else []
  let r := p.create_links postbody
  get_links_core p.request (r.2.map (Option.map (deref r.1))) extra_links

/-- `CollectionLinks` (with the fields of `CollectionLinksBase`). -/
structure CollectionLinks where
  request : Request
  collection_id : String
  deriving DecidableEq

/-- `CollectionLinksBase.collection_link`: a link to
`collections/{collection_id}` resolved against the base URL; the relation
defaults to `"collection"` in Python and is passed explicitly here. -/
def CollectionLinks.collection_link (c : CollectionLinks) (rel : String) :
    Link JDict :=
  { rel := rel, type := MimeTypes.json,
    href := resolve c.request ("collections/" ++ c.collection_id) }

/-- `CollectionLinks.link_self`. -/
def CollectionLinks.link_self (c : CollectionLinks) : Link JDict :=
  c.collection_link "self"

/-- `CollectionLinks.link_parent`. -/
def CollectionLinks.link_parent (c : CollectionLinks) : Link JDict :=
  { rel := "parent", type := MimeTypes.json, href := c.request.base_url }

/-- `CollectionLinks.link_items`. -/
def CollectionLinks.link_items (c : CollectionLinks) : Link JDict :=
  { rel := "items", type := MimeTypes.geojson,
    href := resolve c.request
      ("collections/" ++ c.collection_id ++ "/items") }

/-- `BaseLinks.create_links` for a `CollectionLinks` instance (`dir()` order:
`link_items`, `link_parent`, `link_root`, `link_self`). -/
def CollectionLinks.create_links (c : CollectionLinks) :
    List (Option (Link JDict)) :=
  [some c.link_items, some c.link_parent, some (link_root c.request),
   some (c.link_self)]

/-- `BaseLinks.get_links` on a `CollectionLinks` instance. -/
def CollectionLinks.get_links (c : CollectionLinks)
    (extra_links : List (Link JDict)) :
    List (Option (Link JDict)) × List (Link JDict) :=
  get_links_core c.request c.create_links extra_links

/-! ## Derived notions used to state the properties -/

/-- The list of strings a mixed dictionary value stands for (`urlencode`
with `doseq=True` treats a plain string exactly like a one-element list). -/
def qvList : QVal → List (List Char)
  | QVal.strs vs => vs
  | QVal.str v => [v]

/-- A mixed dictionary viewed as a multi-valued mapping. -/
def normalizeQ (m : MDict) : List (QKey × List (List Char)) :=
  m.map fun kv => (kv.1, qvList kv.2)

/-- Normalise every value of a mixed dictionary to list form. -/
def strsify (m : MDict) : MDict :=
  m.map fun kv => (kv.1, QVal.strs (qvList kv.2))

/-- The ordered `key=value` pairs a mixed dictionary serialises to. -/
def flattenM (m : MDict) : List (QKey × List Char) :=
  (m.map fun kv => (qvList kv.2).map fun v => (kv.1, v)).flatten

/-- All values carried by a key in an ordered pair list. -/
def lookupAll (k : QKey) (ps : List (QKey × List Char)) : List (List Char) :=
  ps.filterMap fun kv => if kv.1 = k then some kv.2 else none

/-- Keys of a mixed dictionary. -/
def keysOf (m : MDict) : List QKey := m.map Prod.fst

/-- Keys of a `parse_qs` result. -/
def keysQ (q : List (QKey × List (List Char))) : List QKey := q.map Prod.fst

/-- First value stored under a key in a mixed dictionary. -/
def findVal (k : QKey) : MDict → Option QVal
  | [] => none
  | (k', v) :: rest => if k' = k then some v else findVal k rest

/-- The mixed dictionary `merge_params url p` serialises:
`parse_qs` of the url's query updated with the new parameters. -/
def mdictOf (url : String) (p : List (String × String)) : MDict :=
  dictUpdate (toMDict (parse_qs (urlparseD url.data []).query)) (newparamsOf p)

/-! ## Concrete request fixtures -/

/-- A GET request for a search page. -/
def reqGetNoCursor : Request :=
  { method := "GET", url := "http://test/search?limit=1",
    base_url := "http://test/", json := [] }

/-- A search page with neither a next nor a previous cursor. -/
def pagingNoCursor : PagingLinks := { request := reqGetNoCursor }

/-- A POST search request whose body is `{"limit": 1}`. -/
def reqPostBoth : Request :=
  { method := "POST", url := "http://test/search",
    base_url := "http://test/", json := [("limit", JVal.num 1)] }

/-- A POST search page with both cursors present. -/
def pagingPostBoth : PagingLinks :=
  { request := reqPostBoth, next := some "N", prev := some "P" }

/-- A GET search request with an existing query string. -/
def reqGetBoth : Request :=
  { method := "GET", url := "http://test/search?limit=3",
    base_url := "http://test/", json := [] }

/-- A GET search page with both cursors present. -/
def pagingGetBoth : PagingLinks :=
  { request := reqGetBoth, next := some "AA", prev := some "BB" }

/-- A PUT request (pagination must silently decline). -/
def reqPut : Request :=
  { method := "PUT", url := "http://test/search",
    base_url := "http://test/", json := [] }

/-- A PUT-method page with both cursors present. -/
def pagingPut : PagingLinks :=
  { request := reqPut, next := some "N", prev := some "P" }

/-- A request resolving to the proxied base URL of the repository's
`test_relative_link_construction` test. -/
def reqStacBase : Request :=
  { method := "PUT", url := "http://test/stac/tab/abc",
    base_url := "http://test/stac/", json := [] }

/-- `CollectionLinks(collection_id="naip", request=req)` of that test. -/
def collNaip : CollectionLinks :=
  { request := reqStacBase, collection_id := "naip" }

/-- An extra link whose href is an absolute URL with the base's scheme but
no authority. -/
def extraAbs : Link JDict :=
  { rel := "license", type := "text/html", href := "http:/foo" }

/-- An extra link with a relative href. -/
def extraRel : Link JDict :=
  { rel := "describedby", type := "text/html", href := "license.html" }

/-- An extra link carrying an inferred relation. -/
def extraSelf : Link JDict :=
  { rel := "self", type := "application/json", href := "http://stale/old" }

/-! ## Dictionary lemmas

The update/serialisation behaviour of the insertion-ordered dictionaries
behind `merge_params`, following the usual association-list development. -/

theorem keysOf_nil : keysOf [] = [] := rfl

theorem keysOf_cons (kv : QKey × QVal) (m : MDict) :
    keysOf (kv :: m) = kv.1 :: keysOf m := rfl

theorem findVal_nil (k : QKey) : findVal k [] = none := rfl

theorem findVal_cons (k k' : QKey) (v : QVal) (m : MDict) :
    findVal k ((k', v) :: m) = if k' = k then some v else findVal k m := rfl

theorem setKey_nil (k : QKey) (v : QVal) : setKey [] k v = [(k, v)] := rfl

theorem setKey_cons (k k' : QKey) (v v' : QVal) (m : MDict) :
    setKey ((k', v') :: m) k v =
      if k' = k then (k', v) :: m else (k', v') :: setKey m k v := rfl

theorem dictUpdate_nil (m : MDict) : dictUpdate m [] = m := rfl

theorem dictUpdate_cons (m : MDict) (kv : QKey × List Char)
    (p : List (QKey × List Char)) :
    dictUpdate m (kv :: p) = dictUpdate (setKey m kv.1 (QVal.str kv.2)) p :=
  rfl

theorem findVal_setKey_self (m : MDict) (k : QKey) (v : QVal) :
    findVal k (setKey m k v) = some v := by
  induction m with
  | nil => simp [setKey_nil, findVal_cons]
  | cons kv rest ih =>
    obtain ⟨k', v'⟩ := kv
    by_cases h : k' = k
    · simp [setKey_cons, findVal_cons, h]
    · simp [setKey_cons, findVal_cons, h, ih]

theorem findVal_setKey_other (m : MDict) (k k' : QKey) (v : QVal)
    (h : k ≠ k') : findVal k (setKey m k' v) = findVal k m := by
  have h' : ¬ (k' = k) := fun hh => h hh.symm
  induction m with
  | nil => simp [setKey_nil, findVal_cons, findVal_nil, h']
  | cons kv rest ih =>
    obtain ⟨k0, v0⟩ := kv
    by_cases h0 : k0 = k'
    · subst h0
      simp [setKey_cons, findVal_cons, h']
    · simp [setKey_cons, findVal_cons, h0, ih]

theorem keysOf_setKey (m : MDict) (k : QKey) (v : QVal) :
    keysOf (setKey m k v) =
      if k ∈ keysOf m then keysOf m else keysOf m ++ [k] := by
  induction m with
  | nil => simp [setKey_nil, keysOf_nil, keysOf_cons]
  | cons kv rest ih =>
    obtain ⟨k0, v0⟩ := kv
    by_cases h0 : k0 = k
    · subst h0
      simp [setKey_cons, keysOf_cons]
    · have hne : ¬ (k = k0) := fun hh => h0 hh.symm
      by_cases hm : k ∈ keysOf rest
      · simp [setKey_cons, keysOf_cons, h0, ih, hm, hne]
      · simp [setKey_cons, keysOf_cons, h0, ih, hm, hne]

theorem nodup_keysOf_setKey (m : MDict) (k : QKey) (v : QVal)
    (h : (keysOf m).Nodup) : (keysOf (setKey m k v)).Nodup := by
  rw [keysOf_setKey]
  by_cases hm : k ∈ keysOf m
  · simpa [hm] using h
  · simp only [hm, if_false]
    exact h.append (List.nodup_singleton k)
      (fun a ha hb => hm ((List.mem_singleton.mp hb) ▸ ha))

theorem mem_keysOf_setKey_of_mem (m : MDict) (k k' : QKey) (v : QVal)
    (h : k' ∈ keysOf m) : k' ∈ keysOf (setKey m k v) := by
  rw [keysOf_setKey]
  by_cases hm : k ∈ keysOf m <;> simp [hm, h]

theorem mem_keysOf_setKey_self (m : MDict) (k : QKey) (v : QVal) :
    k ∈ keysOf (setKey m k v) := by
  rw [keysOf_setKey]
  by_cases hm : k ∈ keysOf m <;> simp [hm]

theorem findVal_dictUpdate_not_mem (p : List (QKey × List Char)) (m : MDict)
    (k : QKey) (h : k ∉ p.map Prod.fst) :
    findVal k (dictUpdate m p) = findVal k m := by
  induction p generalizing m with
  | nil => rfl
  | cons kv rest ih =>
    obtain ⟨k0, v0⟩ := kv
    have hk : k ≠ k0 := by
      intro hh
      exact h (by simp [hh])
    have hrest : k ∉ rest.map Prod.fst := by
      intro hh
      exact h (by simp [hh])
    calc findVal k (dictUpdate m ((k0, v0) :: rest))
        = findVal k (dictUpdate (setKey m k0 (QVal.str v0)) rest) := rfl
      _ = findVal k (setKey m k0 (QVal.str v0)) := ih _ hrest
      _ = findVal k m := findVal_setKey_other m k k0 _ hk

theorem findVal_dictUpdate_mem (p : List (QKey × List Char)) (m : MDict)
    (k : QKey) (v : List Char) (hnd : (p.map Prod.fst).Nodup)
    (h : (k, v) ∈ p) :
    findVal k (dictUpdate m p) = some (QVal.str v) := by
  induction p generalizing m with
  | nil => cases h
  | cons kv rest ih =>
    obtain ⟨k0, v0⟩ := kv
    rw [List.map_cons] at hnd
    have hnd' := List.nodup_cons.mp hnd
    rcases List.mem_cons.mp h with h0 | h0
    · have hk : k = k0 := congrArg Prod.fst h0
      have hv : v = v0 := congrArg Prod.snd h0
      subst hk
      subst hv
      have hnot : k ∉ rest.map Prod.fst := hnd'.1
      calc findVal k (dictUpdate m ((k, v) :: rest))
          = findVal k (dictUpdate (setKey m k (QVal.str v)) rest) := rfl
        _ = findVal k (setKey m k (QVal.str v)) :=
            findVal_dictUpdate_not_mem rest _ k hnot
        _ = some (QVal.str v) := findVal_setKey_self ..
    · exact ih _ hnd'.2 h0

theorem mem_keysOf_dictUpdate_of_mem (p : List (QKey × List Char))
    (m : MDict) (k : QKey) (h : k ∈ keysOf m) :
    k ∈ keysOf (dictUpdate m p) := by
  induction p generalizing m with
  | nil => exact h
  | cons kv rest ih =>
    exact ih _ (mem_keysOf_setKey_of_mem m kv.1 k (QVal.str kv.2) h)

theorem mem_keysOf_dictUpdate_of_mem_p (p : List (QKey × List Char))
    (m : MDict) (k : QKey) (h : k ∈ p.map Prod.fst) :
    k ∈ keysOf (dictUpdate m p) := by
  induction p generalizing m with
  | nil => cases h
  | cons kv rest ih =>
    rw [List.map_cons] at h
    rcases List.mem_cons.mp h with h0 | h0
    · exact mem_keysOf_dictUpdate_of_mem rest _ k
        (h0 ▸ mem_keysOf_setKey_self m kv.1 (QVal.str kv.2))
    · exact ih _ h0

theorem keysOf_dictUpdate_of_sub (p : List (QKey × List Char)) (m : MDict)
    (h : ∀ k ∈ p.map Prod.fst, k ∈ keysOf m) :
    keysOf (dictUpdate m p) = keysOf m := by
  induction p generalizing m with
  | nil => rfl
  | cons kv rest ih =>
    have h0 : kv.1 ∈ keysOf m := h kv.1 (by simp)
    have hset : keysOf (setKey m kv.1 (QVal.str kv.2)) = keysOf m := by
      rw [keysOf_setKey]; simp [h0]
    calc keysOf (dictUpdate m (kv :: rest))
        = keysOf (dictUpdate (setKey m kv.1 (QVal.str kv.2)) rest) := rfl
      _ = keysOf (setKey m kv.1 (QVal.str kv.2)) :=
          ih _ (fun k hk => hset ▸ h k (by simp [hk]))
      _ = keysOf m := hset

theorem nodup_keysOf_dictUpdate (p : List (QKey × List Char)) (m : MDict)
    (h : (keysOf m).Nodup) : (keysOf (dictUpdate m p)).Nodup := by
  induction p generalizing m with
  | nil => exact h
  | cons kv rest ih =>
    exact ih _ (nodup_keysOf_setKey m kv.1 (QVal.str kv.2) h)

theorem keysOf_strsify (m : MDict) : keysOf (strsify m) = keysOf m := by
  simp [keysOf, strsify]

theorem findVal_strsify (m : MDict) (k : QKey) :
    findVal k (strsify m) =
      (findVal k m).map fun qv => QVal.strs (qvList qv) := by
  induction m with
  | nil => simp [strsify, findVal_nil]
  | cons kv rest ih =>
    obtain ⟨k0, v0⟩ := kv
    by_cases h0 : k0 = k
    · simp [strsify, findVal_cons, h0]
    · simpa [strsify, findVal_cons, h0] using ih

theorem strsify_toMDict (q : List (QKey × List (List Char))) :
    strsify (toMDict q) = toMDict q := by
  simp [strsify, toMDict, qvList]

theorem findVal_eq_none_of_not_mem (m : MDict) (k : QKey)
    (h : k ∉ keysOf m) : findVal k m = none := by
  induction m with
  | nil => rfl
  | cons kv rest ih =>
    obtain ⟨k0, v0⟩ := kv
    rw [keysOf_cons, List.mem_cons] at h
    push_neg at h
    rw [findVal_cons, if_neg (fun hh => h.1 hh.symm)]
    exact ih h.2

theorem eq_of_keys_findVal (m₁ m₂ : MDict) (hk : keysOf m₁ = keysOf m₂)
    (hnd : (keysOf m₁).Nodup) (hf : ∀ k, findVal k m₁ = findVal k m₂) :
    m₁ = m₂ := by
  induction m₁ generalizing m₂ with
  | nil =>
    cases m₂ with
    | nil => rfl
    | cons kv rest => simp [keysOf_nil, keysOf_cons] at hk
  | cons kv₁ rest₁ ih =>
    cases m₂ with
    | nil => simp [keysOf_nil, keysOf_cons] at hk
    | cons kv₂ rest₂ =>
      obtain ⟨k₁, v₁⟩ := kv₁
      obtain ⟨k₂, v₂⟩ := kv₂
      rw [keysOf_cons, keysOf_cons] at hk
      have hkk : k₁ = k₂ := by
        have := congrArg (fun l => l.head?) hk
        simpa using this
      subst hkk
      have hkt : keysOf rest₁ = keysOf rest₂ := by
        have := congrArg (fun l => l.tail) hk
        simpa using this
      have hv : v₁ = v₂ := by
        have := hf k₁
        simpa [findVal_cons] using this
      subst hv
      rw [keysOf_cons] at hnd
      have hnd' := List.nodup_cons.mp hnd
      have hf' : ∀ k, findVal k rest₁ = findVal k rest₂ := by
        intro k
        by_cases hkk : k = k₁
        · subst hkk
          rw [findVal_eq_none_of_not_mem rest₁ k hnd'.1,
            findVal_eq_none_of_not_mem rest₂ k (hkt ▸ hnd'.1)]
        · have hne : ¬ (k₁ = k) := fun hh => hkk hh.symm
          have := hf k
          simpa [findVal_cons, hne] using this
      rw [ih rest₂ hkt hnd'.2 hf']

theorem lookupAll_append (k : QKey) (a b : List (QKey × List Char)) :
    lookupAll k (a ++ b) = lookupAll k a ++ lookupAll k b := by
  simp [lookupAll]

theorem lookupAll_self_pairs (k : QKey) (vs : List (List Char)) :
    lookupAll k (vs.map fun v => (k, v)) = vs := by
  induction vs with
  | nil => rfl
  | cons v rest ih => simpa [lookupAll] using ih

theorem lookupAll_other_pairs (k k' : QKey) (vs : List (List Char))
    (h : ¬ (k' = k)) : lookupAll k (vs.map fun v => (k', v)) = [] := by
  induction vs with
  | nil => rfl
  | cons v rest ih =>
    simp only [List.map_cons, lookupAll, List.filterMap_cons, if_neg h]
    exact ih

theorem lookupAll_flattenM_none_aux (m : MDict) (k : QKey)
    (h : k ∉ keysOf m) : lookupAll k (flattenM m) = [] := by
  induction m with
  | nil => rfl
  | cons kv rest ih =>
    obtain ⟨k0, v0⟩ := kv
    rw [keysOf_cons, List.mem_cons] at h
    push_neg at h
    have hflat : flattenM ((k0, v0) :: rest) =
        ((qvList v0).map fun v => (k0, v)) ++ flattenM rest := by
      simp [flattenM]
    rw [hflat, lookupAll_append,
      lookupAll_other_pairs k k0 _ (fun hh => h.1 hh.symm), List.nil_append]
    exact ih h.2

theorem lookupAll_flattenM (m : MDict) (k : QKey)
    (hnd : (keysOf m).Nodup) :
    lookupAll k (flattenM m) =
      match findVal k m with
      | none => []
      | some qv => qvList qv := by
  induction m with
  | nil => rfl
  | cons kv rest ih =>
    obtain ⟨k0, v0⟩ := kv
    rw [keysOf_cons] at hnd
    have hnd' := List.nodup_cons.mp hnd
    have hflat : flattenM ((k0, v0) :: rest) =
        ((qvList v0).map fun v => (k0, v)) ++ flattenM rest := by
      simp [flattenM]
    rw [hflat, lookupAll_append]
    by_cases h0 : k0 = k
    · subst h0
      rw [lookupAll_self_pairs, findVal_cons, if_pos rfl,
        lookupAll_flattenM_none_aux rest k0 hnd'.1]
      simp
    · rw [lookupAll_other_pairs k k0 _ h0, findVal_cons, if_neg h0,
        List.nil_append]
      exact ih hnd'.2

theorem keysQ_nil : keysQ [] = [] := rfl

theorem keysQ_cons (kv : QKey × List (List Char))
    (q : List (QKey × List (List Char))) :
    keysQ (kv :: q) = kv.1 :: keysQ q := rfl

theorem keysQ_qsAdd (m : List (QKey × List (List Char))) (k : QKey)
    (v : List Char) :
    keysQ (qsAdd m k v) = if k ∈ keysQ m then keysQ m else keysQ m ++ [k] := by
  induction m with
  | nil => simp [qsAdd, keysQ_nil, keysQ_cons]
  | cons kv rest ih =>
    obtain ⟨k0, v0⟩ := kv
    by_cases h0 : k0 = k
    · subst h0
      simp [qsAdd, keysQ_cons]
    · have hne : ¬ (k = k0) := fun hh => h0 hh.symm
      by_cases hm : k ∈ keysQ rest
      · simp [qsAdd, keysQ_cons, h0, ih, hm, hne]
      · simp [qsAdd, keysQ_cons, h0, ih, hm, hne]

theorem nodup_keysQ_qsAdd (m : List (QKey × List (List Char))) (k : QKey)
    (v : List Char) (h : (keysQ m).Nodup) : (keysQ (qsAdd m k v)).Nodup := by
  rw [keysQ_qsAdd]
  by_cases hm : k ∈ keysQ m
  · simpa [hm] using h
  · simp only [hm, if_false]
    exact h.append (List.nodup_singleton k)
      (fun a ha hb => hm ((List.mem_singleton.mp hb) ▸ ha))

theorem nodup_keysQ_foldl_qsAdd (l : List (QKey × List Char))
    (acc : List (QKey × List (List Char))) (h : (keysQ acc).Nodup) :
    (keysQ (l.foldl (fun m kv => qsAdd m kv.1 kv.2) acc)).Nodup := by
  induction l generalizing acc with
  | nil => exact h
  | cons kv rest ih => exact ih _ (nodup_keysQ_qsAdd acc kv.1 kv.2 h)

theorem nodup_keysQ_parse_qs (qs : List Char) :
    (keysQ (parse_qs qs)).Nodup :=
  nodup_keysQ_foldl_qsAdd (parse_qsl qs) [] List.nodup_nil

theorem keysOf_toMDict (q : List (QKey × List (List Char))) :
    keysOf (toMDict q) = keysQ q := by
  simp [keysOf, toMDict, keysQ]

theorem toMDict_normalizeQ (m : MDict) :
    toMDict (normalizeQ m) = strsify m := by
  simp [toMDict, normalizeQ, strsify]

/-- The heart of the stability property: re-parsing the serialised updated
dictionary to its list-valued normal form and updating it again with the
same parameters reproduces the updated dictionary exactly. -/
theorem dictUpdate_strsify_dictUpdate (p : List (QKey × List Char))
    (m : MDict) (hnd : (p.map Prod.fst).Nodup)
    (hm : (keysOf m).Nodup) (hstrs : strsify m = m) :
    dictUpdate (strsify (dictUpdate m p)) p = dictUpdate m p := by
  have hkeysM : (keysOf (dictUpdate m p)).Nodup := nodup_keysOf_dictUpdate p m hm
  have hsub : ∀ k ∈ p.map Prod.fst, k ∈ keysOf (strsify (dictUpdate m p)) := by
    intro k hk
    rw [keysOf_strsify]
    exact mem_keysOf_dictUpdate_of_mem_p p m k hk
  apply eq_of_keys_findVal
  · rw [keysOf_dictUpdate_of_sub p _ hsub, keysOf_strsify]
  · rw [keysOf_dictUpdate_of_sub p _ hsub, keysOf_strsify]
    exact hkeysM
  · intro k
    by_cases hk : k ∈ p.map Prod.fst
    · rcases List.mem_map.mp hk with ⟨kv, hkv, hfst⟩
      have hmem : (k, kv.2) ∈ p := by
        have : kv = (k, kv.2) := by
          rw [← hfst]
        exact this ▸ hkv
      rw [findVal_dictUpdate_mem p _ k kv.2 hnd hmem,
        findVal_dictUpdate_mem p _ k kv.2 hnd hmem]
    · rw [findVal_dictUpdate_not_mem p _ k hk,
        findVal_dictUpdate_not_mem p _ k hk, findVal_strsify,
        findVal_dictUpdate_not_mem p _ k hk]
      conv_rhs => rw [← hstrs]
      rw [findVal_strsify]

/-! ## C1 -/

/-- C1: the claim says the link list built by `create_links` / `get_links`
contains only links actually produced, never a null entry.  The code appends
the producer's return value without a `None` check, so on a page with no
cursors both pagination producers contribute `None` and the returned list
contains two null entries.  (The repository's own pagination tests subscript
every element of the returned `links` list, which a null entry breaks.) -/
theorem C1_declining_producer_appends_none :
    (PagingLinks.get_links pagingNoCursor []).1 =
      [none, none, some (link_root reqGetNoCursor),
       some (link_self reqGetNoCursor)] ∧
    none ∈ (PagingLinks.get_links pagingNoCursor []).1 := by decide

/-! ## C2 -/

/-- C2: the claim says that under POST with both cursors present the next
link's body carries `token = "next:<next>"` and the previous link's body
carries `token = "prev:<prev>"`.  In the code both links alias the single
shared `request.postbody` dictionary; `link_prev` runs after `link_next`
(`dir()` order) and overwrites the token, so in the returned list both
bodies carry the `prev` token — the next link's body is not the claimed
one. -/
theorem C2_post_bodies_share_token :
    (PagingLinks.get_links pagingPostBoth []).1 =
      [some { rel := "next", type := MimeTypes.json, method := some "POST",
              href := "http://test/search",
              body := some [("limit", JVal.num 1),
                            ("token", JVal.str "prev:P")] },
       some { rel := "previous", type := MimeTypes.json,
              method := some "POST", href := "http://test/search",
              body := some [("limit", JVal.num 1),
                            ("token", JVal.str "prev:P")] },
       some (link_root reqPostBoth), some (link_self reqPostBoth)] ∧
    ¬ ((PagingLinks.get_links pagingPostBoth []).1[0]? =
        some (some { rel := "next", type := MimeTypes.json,
                     method := some "POST", href := "http://test/search",
                     body := some [("limit", JVal.num 1),
                                   ("token", JVal.str "next:N")] })) := by
  decide

/-! ## C9 -/

/-- C9: for `collection_id="naip"` and a request resolving to base URL
`http://test/stac/`, `link_items()` is the items link under the proxied
base. -/
theorem C9_link_items_href :
    CollectionLinks.link_items collNaip =
      { rel := "items", type := MimeTypes.geojson,
        href := "http://test/stac/collections/naip/items" } ∧
    (CollectionLinks.link_items collNaip).href =
      "http://test/stac/collections/naip/items" := by decide

/-! ## C4, counterexample -/

/-- C4 counterexample: the claim says `merge_params` preserves every
key/value pair of the original query string whose key is not in the new
parameters.  The pair `flag=` (key `flag`, blank value) of the original
query is dropped: `parse_qs` discards blank-valued pairs, so the merged URL
contains no `flag` at all. -/
theorem C4_counterexample :
    merge_params "http://test/search?flag=&limit=3" [("token", "next:abc")]
      = "http://test/search?limit=3&token=next:abc" ∧
    (splitChar '&'
        (urlparseD ("http://test/search?flag=&limit=3").data []).query).contains
      ("flag=".data) = true ∧
    (splitChar '&'
        (urlparseD
          (merge_params "http://test/search?flag=&limit=3"
            [("token", "next:abc")]).data []).query).any
      (fun seg => seg.take 4 == "flag".data) = false := by decide

/-! ## C5, counterexample -/

/-- C5 counterexample: the claim says merging the same parameters twice
always yields the same URL.  When a percent-decoded value reintroduces `&`
(here `x=a%26b`), the first merge emits `x=a&b...`, which the second merge
re-parses differently, so the second merge drops `b` and the results
differ. -/
theorem C5_counterexample :
    merge_params "http://test/search?x=a%26b" [("token", "next:abc")] =
      "http://test/search?x=a&b&token=next:abc" ∧
    merge_params
        (merge_params "http://test/search?x=a%26b" [("token", "next:abc")])
        [("token", "next:abc")] =
      "http://test/search?x=a&token=next:abc" ∧
    merge_params
        (merge_params "http://test/search?x=a%26b" [("token", "next:abc")])
        [("token", "next:abc")] ≠
      merge_params "http://test/search?x=a%26b" [("token", "next:abc")] := by
  decide

/-! ## C4, amended -/

/-- C4 (amended): for every URL and parameter map with distinct keys,
`merge_params` serialises the parsed query updated with the new parameters:
a key of the new parameters carries exactly its new value in the serialised
pair list (fully replaced, not appended), and every other key carries
exactly the percent-decoded values parsed from the original query string
(pairs with blank values having been dropped by the parse); the spec's
concrete example is preserved verbatim. -/
theorem C4_merge_overlays_and_preserves (u : String)
    (p : List (String × String))
    (hp : ((newparamsOf p).map Prod.fst).Nodup) :
    (∀ k v, (k, v) ∈ newparamsOf p →
      lookupAll k (flattenM (mdictOf u p)) = [v]) ∧
    (∀ k, k ∉ (newparamsOf p).map Prod.fst →
      lookupAll k (flattenM (mdictOf u p)) =
        lookupAll k
          (flattenM (toMDict (parse_qs (urlparseD u.data []).query)))) ∧
    merge_params u p =
      String.mk (urlunparse
        { urlparseD u.data [] with
            query := unquoteChars (urlencode (mdictOf u p)) }) ∧
    merge_params "http://test/search?limit=3&bbox=1,2,3,4"
        [("token", "next:abc")] =
      "http://test/search?limit=3&bbox=1,2,3,4&token=next:abc" := by
  have hnodup0 :
      (keysOf (toMDict (parse_qs (urlparseD u.data []).query))).Nodup := by
    rw [keysOf_toMDict]
    exact nodup_keysQ_parse_qs _
  have hnodupM : (keysOf (mdictOf u p)).Nodup := by
    unfold mdictOf
    exact nodup_keysOf_dictUpdate _ _ hnodup0
  refine ⟨?_, ?_, rfl, by decide⟩
  · intro k v hkv
    rw [lookupAll_flattenM _ _ hnodupM]
    unfold mdictOf
    rw [findVal_dictUpdate_mem _ _ k v hp hkv]
    rfl
  · intro k hk
    rw [lookupAll_flattenM _ _ hnodupM, lookupAll_flattenM _ _ hnodup0]
    unfold mdictOf
    rw [findVal_dictUpdate_not_mem _ _ k hk]

/-- Witness for the amended C4 at the spec's example URL. -/
theorem C4_merge_overlays_witness :
    lookupAll ("token".data)
        (flattenM (mdictOf "http://test/search?limit=3&bbox=1,2,3,4"
          [("token", "next:abc")])) = ["next:abc".data] ∧
    lookupAll ("limit".data)
        (flattenM (mdictOf "http://test/search?limit=3&bbox=1,2,3,4"
          [("token", "next:abc")])) =
      lookupAll ("limit".data)
        (flattenM (toMDict (parse_qs
          (urlparseD ("http://test/search?limit=3&bbox=1,2,3,4").data
            []).query))) :=
  ⟨(C4_merge_overlays_and_preserves _ _ (by decide)).1 _ _ (by decide),
   (C4_merge_overlays_and_preserves _ _ (by decide)).2.1 _ (by decide)⟩

/-! ## C5, amended -/

/-- C5 (amended): `merge_params` is stable on every input whose once-merged
URL re-parses cleanly — the re-parse keeps the five non-query components and
recovers the merged query's parameter multimap (this excludes exactly the
inputs where a percent-decoded value reintroduces query or fragment
structure, as in the counterexample): merging the same parameters a second
time then returns a byte-identical URL. -/
theorem C5_merge_params_stable (u : String) (p : List (String × String))
    (hp : ((newparamsOf p).map Prod.fst).Nodup)
    (h1 : urlparseD (merge_params u p).data [] =
      { urlparseD u.data [] with
          query := unquoteChars (urlencode (mdictOf u p)) })
    (h2 : parse_qs (unquoteChars (urlencode (mdictOf u p))) =
      normalizeQ (mdictOf u p)) :
    merge_params (merge_params u p) p = merge_params u p := by
  have hG : dictUpdate (strsify (mdictOf u p)) (newparamsOf p) =
      mdictOf u p := by
    unfold mdictOf
    apply dictUpdate_strsify_dictUpdate _ _ hp
    · rw [keysOf_toMDict]
      exact nodup_keysQ_parse_qs _
    · exact strsify_toMDict _
  set r := merge_params u p with hr
  show String.mk (urlunparse
    { urlparseD r.data [] with
        query := unquoteChars (urlencode (dictUpdate
          (toMDict (parse_qs (urlparseD r.data []).query))
          (newparamsOf p))) }) = r
  rw [h1]
  show String.mk (urlunparse
    { urlparseD u.data [] with
        query := unquoteChars (urlencode (dictUpdate
          (toMDict (parse_qs (unquoteChars (urlencode (mdictOf u p)))))
          (newparamsOf p))) }) = r
  rw [h2, toMDict_normalizeQ, hG, hr]
  rfl

/-- Witness for the amended C5 at the spec's example URL. -/
theorem C5_merge_params_stable_witness :
    merge_params
        (merge_params "http://test/search?limit=3&bbox=1,2,3,4"
          [("token", "next:abc")]) [("token", "next:abc")] =
      merge_params "http://test/search?limit=3&bbox=1,2,3,4"
        [("token", "next:abc")] :=
  C5_merge_params_stable _ _ (by decide) (by decide) (by decide)

/-! ## C7, counterexample -/

/-- C7 counterexample: the claim says an extra link whose href is already an
absolute URL is returned unchanged.  `http:/foo` is an absolute URL (it has
a scheme), but because its scheme equals the base's, `urljoin` treats it as
a relative reference: the entry comes back with href `http://test/foo`, not
unchanged. -/
theorem C7_counterexample :
    (splitScheme ("http:/foo".data)).isSome = true ∧
    urljoin "http://test/stac/" "http:/foo" = "http://test/foo" ∧
    "http://test/foo" ≠ "http:/foo" ∧
    (get_links_core reqStacBase [] [extraAbs]).1 =
      [some { extraAbs with href := "http://test/foo" }] ∧
    (get_links_core reqStacBase [] [extraAbs]).2 =
      [{ extraAbs with href := "http://test/foo" }] := by decide

/-! ## Shared helper lemmas about the link builders -/

theorem get_links_core_fst_eq (req : Request)
    (gen : List (Option (Link JDict))) (extras : List (Link JDict)) :
    (get_links_core req gen extras).1 =
      gen ++ ((extras.filter
        fun l => !(INFERRED_LINK_RELS.contains l.rel)).map
          fun l => some { l with href := resolve req l.href }) := by
  unfold get_links_core
  induction extras with
  | nil => rfl
  | cons e rest ih =>
    by_cases he : e.rel ∈ INFERRED_LINK_RELS
    · simpa [he] using ih
    · simpa [he] using ih

theorem urlsplitD_scheme_of_splitScheme (url d s r : List Char)
    (h : splitScheme url = some (s, r)) : (urlsplitD url d).scheme = s := by
  unfold urlsplitD
  rw [h]

theorem urlparseD_scheme (url d : List Char) :
    (urlparseD url d).scheme = (urlsplitD url d).scheme := rfl

/-! ## C3 -/

/-- C3: for a GET-method request with a next (resp. previous) cursor
present, the built pagination link has relation next (resp. previous), no
body, and href equal to the current request URL with the single parameter
`token=next:<cursor>` (resp. `token=prev:<cursor>`) merged into its query
string by `merge_params`; it sits at its producer's position in the list
`get_links` returns. -/
theorem C3_get_token_links (p : PagingLinks) (extras : List (Link JDict))
    (hm : p.request.method = "GET") :
    (∀ c, p.next = some c →
      (p.get_links extras).1[0]? =
        some (some { rel := "next", type := MimeTypes.json,
                     method := some "GET",
                     href := merge_params p.request.url
                       [("token", "next:" ++ c)], body := none })) ∧
    (∀ c, p.prev = some c →
      (p.get_links extras).1[1]? =
        some (some { rel := "previous", type := MimeTypes.json,
                     method := some "GET",
                     href := merge_params p.request.url
                       [("token", "prev:" ++ c)], body := none })) := by
  constructor
  · intro c hc
    simp [PagingLinks.get_links, PagingLinks.create_links, get_links_core,
      PagingLinks.link_next, PagingLinks.link_prev, deref, hm, hc]
  · intro c hc
    simp [PagingLinks.get_links, PagingLinks.create_links, get_links_core,
      PagingLinks.link_next, PagingLinks.link_prev, deref, hm, hc]

/-- Witness for C3: a GET request with both cursors. -/
theorem C3_get_token_links_witness :
    (pagingGetBoth.get_links []).1[0]? =
      some (some { rel := "next", type := MimeTypes.json,
                   method := some "GET",
                   href := merge_params pagingGetBoth.request.url
                     [("token", "next:" ++ "AA")], body := none }) ∧
    (pagingGetBoth.get_links []).1[1]? =
      some (some { rel := "previous", type := MimeTypes.json,
                   method := some "GET",
                   href := merge_params pagingGetBoth.request.url
                     [("token", "prev:" ++ "BB")], body := none }) :=
  ⟨(C3_get_token_links pagingGetBoth [] rfl).1 "AA" rfl,
   (C3_get_token_links pagingGetBoth [] rfl).2 "BB" rfl⟩

/-! ## C6 -/

/-- C6: `filter_links` removes exactly the links with an inferred relation,
keeping all others in order, and the extra links `get_links` appends are
exactly the non-inferred ones — an extra entry with an inferred relation
never reaches the returned list, whose non-generated members all have
non-inferred relations. -/
theorem C6_inferred_links_filtered (links : List (Link JDict))
    (req : Request) (gen : List (Option (Link JDict)))
    (extras : List (Link JDict)) :
    List.Sublist (filter_links links) links ∧
    (∀ l, l ∈ filter_links links ↔
      l ∈ links ∧ INFERRED_LINK_RELS.contains l.rel = false) ∧
    (get_links_core req gen extras).1 =
      gen ++ ((extras.filter
        fun l => !(INFERRED_LINK_RELS.contains l.rel)).map
          fun l => some { l with href := resolve req l.href }) ∧
    (∀ l, some l ∈ (get_links_core req gen extras).1 → some l ∉ gen →
      INFERRED_LINK_RELS.contains l.rel = false) := by
  refine ⟨List.filter_sublist _, ?_, get_links_core_fst_eq req gen extras, ?_⟩
  · intro l
    simp [filter_links, List.mem_filter]
  · intro l hmem hnot
    rw [get_links_core_fst_eq] at hmem
    rcases List.mem_append.mp hmem with h | h
    · exact absurd h hnot
    · rcases List.mem_map.mp h with ⟨x, hx, hxl⟩
      have hrel : l.rel = x.rel := by
        have : { x with href := resolve req x.href } = l :=
          Option.some.inj hxl
        rw [← this]
      rw [hrel]
      have := (List.mem_filter.mp hx).2
      simpa using this

/-- Witness for C6: a non-inferred extra link passes through resolved. -/
theorem C6_inferred_links_filtered_witness :
    INFERRED_LINK_RELS.contains
      ({ extraRel with href := "http://test/stac/license.html" }
        : Link JDict).rel = false :=
  (C6_inferred_links_filtered [] reqStacBase [] [extraRel]).2.2.2
    { extraRel with href := "http://test/stac/license.html" }
    (by decide) (by decide)

/-! ## C7, amended -/

/-- C7 (amended): each non-inferred extra entry is appended with its href
resolved by `urljoin`, which implements RFC 3986 resolution in its
backward-compatible non-strict mode: a target whose scheme differs from the
base URL's is returned unchanged, while a same-scheme target is treated as a
relative reference (so a same-scheme absolute target keeps its own authority
but is re-serialised, and a relative target is resolved against the base
URL's scheme, authority and path). -/
theorem C7_extras_resolved_nonstrict (req : Request)
    (gen : List (Option (Link JDict))) (extras : List (Link JDict)) :
    (∀ l ∈ extras, INFERRED_LINK_RELS.contains l.rel = false →
      some { l with href := urljoin req.base_url l.href } ∈
        (get_links_core req gen extras).1) ∧
    (∀ b t s r, b ≠ [] → t ≠ [] → splitScheme t = some (s, r) →
      s ≠ (urlsplitD b []).scheme → urljoinChars b t = t) ∧
    urljoin "http://test/stac/" "https://other.example/doc" =
      "https://other.example/doc" ∧
    urljoin "http://test/stac/" "http://other/x" = "http://other/x" ∧
    urljoin "http://test/stac/" "license.html" =
      "http://test/stac/license.html" := by
  refine ⟨?_, ?_, by decide, by decide, by decide⟩
  · intro l hl hrel
    rw [get_links_core_fst_eq]
    refine List.mem_append_right _ (List.mem_map.mpr ⟨l, ?_, rfl⟩)
    exact List.mem_filter.mpr ⟨hl, by simpa using hrel⟩
  · intro b t s r hb ht hsp hne
    have hts : (urlparseD t (urlparseD b []).scheme).scheme = s := by
      rw [urlparseD_scheme, urlsplitD_scheme_of_splitScheme t _ s r hsp]
    have hbs : (urlparseD b []).scheme = (urlsplitD b []).scheme :=
      urlparseD_scheme b []
    unfold urljoinChars
    rw [if_neg (fun hh => hb (by simpa using hh)),
      if_neg (fun hh => ht (by simpa using hh)), if_pos]
    rw [Bool.or_eq_true]
    left
    rw [decide_eq_true_eq, hts, hbs]
    exact hne

/-- Witness for the amended C7. -/
theorem C7_extras_resolved_nonstrict_witness :
    some ({ extraRel with
            href := urljoin reqStacBase.base_url extraRel.href } :
        Link JDict) ∈
      (get_links_core reqStacBase [] [extraRel]).1 ∧
    urljoinChars ("http://test/".data) ("mailto:x@y".data) =
      "mailto:x@y".data :=
  ⟨(C7_extras_resolved_nonstrict reqStacBase [] [extraRel]).1 extraRel
      (by decide) (by decide),
   (C7_extras_resolved_nonstrict reqStacBase [] []).2.1
      ("http://test/".data) ("mailto:x@y".data) ("mailto".data) ("x@y".data)
      (by decide) (by decide) (by decide) (by decide)⟩

/-! ## C8 -/

/-- C8: a pagination link of a direction is produced only when that
direction's cursor is present and the method is GET or POST; an absent
cursor yields no link of that direction, and any other HTTP method yields no
pagination link at all — `get_links` still returns the remaining links and
raises no error. -/
theorem C8_pagination_guards (p : PagingLinks) (pb : JDict) :
    (p.next = none → (p.link_next pb).2 = none) ∧
    (p.prev = none → (p.link_prev pb).2 = none) ∧
    ((p.link_next pb).2.isSome = true →
      p.next.isSome = true ∧
        (p.request.method = "GET" ∨ p.request.method = "POST")) ∧
    ((p.link_prev pb).2.isSome = true →
      p.prev.isSome = true ∧
        (p.request.method = "GET" ∨ p.request.method = "POST")) ∧
    (p.request.method ≠ "GET" → p.request.method ≠ "POST" →
      (p.get_links []).1 =
        [none, none, some (link_root p.request),
         some (link_self p.request)]) := by
  refine ⟨?_, ?_, ?_, ?_, ?_⟩
  · intro h
    simp [PagingLinks.link_next, h]
  · intro h
    simp [PagingLinks.link_prev, h]
  · intro h
    cases hn : p.next with
    | none => simp [PagingLinks.link_next, hn] at h
    | some n =>
      refine ⟨by simp [hn], ?_⟩
      by_cases hg : p.request.method = "GET"
      · exact Or.inl hg
      · by_cases hp : p.request.method = "POST"
        · exact Or.inr hp
        · simp [PagingLinks.link_next, hn, hg, hp] at h
  · intro h
    cases hn : p.prev with
    | none => simp [PagingLinks.link_prev, hn] at h
    | some n =>
      refine ⟨by simp [hn], ?_⟩
      by_cases hg : p.request.method = "GET"
      · exact Or.inl hg
      · by_cases hp : p.request.method = "POST"
        · exact Or.inr hp
        · simp [PagingLinks.link_prev, hn, hg, hp] at h
  · intro h1 h2
    cases hn : p.next <;> cases hv : p.prev <;>
      simp [PagingLinks.get_links, PagingLinks.create_links,
        PagingLinks.link_next, PagingLinks.link_prev, get_links_core, deref,
        link_root, link_self, h1, h2, hn, hv]

/-- Witness for C8: an absent cursor declines; a PUT request produces no
pagination link and no error. -/
theorem C8_pagination_guards_witness :
    (pagingNoCursor.link_next []).2 = none ∧
    (pagingPut.get_links []).1 =
      [none, none, some (link_root reqPut), some (link_self reqPut)] :=
  ⟨(C8_pagination_guards pagingNoCursor []).1 rfl,
   (C8_pagination_guards pagingPut []).2.2.2.2 (by decide) (by decide)⟩

/-! ## C10 -/

/-- C10: `get_links` overwrites, in place, the `href` of every extra entry
whose relation is not inferred, so the caller's entries come back mutated;
the appended portion of the returned list consists exactly of the mutated
entries that carry a non-inferred relation; relations are never changed; and
with the (shared, never-extended) default empty `extra_links` the result is
the generated links alone. -/
theorem C10_get_links_mutates_extras (req : Request)
    (gen : List (Option (Link JDict))) (extras : List (Link JDict)) :
    ((get_links_core req gen extras).2 =
      extras.map fun l =>
        if INFERRED_LINK_RELS.contains l.rel then l
        else { l with href := resolve req l.href }) ∧
    ((get_links_core req gen extras).2.map Link.rel =
      extras.map Link.rel) ∧
    ((get_links_core req gen extras).1 =
      gen ++ ((get_links_core req gen extras).2.filter
        fun l => !(INFERRED_LINK_RELS.contains l.rel)).map some) ∧
    get_links_core req gen [] = (gen, []) := by
  refine ⟨rfl, ?_, rfl, by simp [get_links_core]⟩
  show (extras.map fun l =>
      if INFERRED_LINK_RELS.contains l.rel then l
      else { l with href := resolve req l.href }).map Link.rel =
    extras.map Link.rel
  rw [List.map_map]
  apply List.map_congr_left
  intro l _
  by_cases hc : l.rel ∈ INFERRED_LINK_RELS <;> simp [hc]

end StacLinks
